import Mathlib

/-!
Shallow embedding of `src/tradingAlgorithms.ts` from the
Stock-Trading-Profit-Calculator repository, together with proofs about the
two trade finders `findBestTrade` (quadratic scan with restart/pruning) and
`findBestTradeFast` (linear single pass).

Prices are modelled as `List Int` (the source operates on JS number arrays;
every claim under study concerns exact ordered-ring arithmetic).  Array reads
`prices[i]` are modelled totally by `List.getD` with default `0`; the checked
variants (`innerScanB`, `outerLoopB`, `fastLoopB`) thread every read through
`Option` and we prove the checked programs always return `some`, so the
default of `getD` is never consulted.

The loops are written as fuel-indexed structural recursions that keep the
source's loop guards; `findBestTrade` runs its outer loop with fuel
`p.length`, and `outerLoop_isSome` proves this fuel is never exhausted (the
outer index strictly increases on every iteration, jump or not), so the
`Option.getD` fallback in `findBestTrade` is likewise never consulted.
-/

namespace StockTrading

/-- The read `prices[i]`, total via `getD` (see module docstring). -/
def priceAt (p : List Int) (i : Nat) : Int := p.getD i 0

/-- Realized profit of a (buy, sell) index pair: `prices[sell] - prices[buy]`. -/
def pairProfit (p : List Int) (b s : Nat) : Int := priceAt p s - priceAt p b

/-- Inner loop of `findBestTrade` (source lines 32-61): scans future indices
`f` starting at `currentIndex + 1`, updating the best pair when
`potentialProfit > currentBestProfit` (the latter recomputed each step from
the current best pair) and recording the deepest price drop and its index.
State: fuel, `f`, `bestBuyIndex`, `bestSellIndex`, `minPriceDrop`,
`isOptimalFound`, `nextTradeStartIndex`. -/
def innerScan (p : List Int) (c : Nat) :
    Nat → Nat → Nat → Nat → Int → Bool → Int → (Nat × Nat) × Bool × Int
  | 0, _, bB, bS, _, opt, next => ((bB, bS), opt, next)
  | fuel + 1, f, bB, bS, mPD, opt, next =>
    if f < p.length then
      let pot := priceAt p f - priceAt p c
      let cBP := priceAt p bS - priceAt p bB
      let bB' := if pot > cBP then c else bB
      let bS' := if pot > cBP then f else bS
      let mPD' := if pot < mPD then pot else mPD
      let next' := if pot < mPD then (f : Int) else next
      let opt' := if pot < mPD then false else opt
      innerScan p c fuel (f + 1) bB' bS' mPD' opt' next'
    else ((bB, bS), opt, next)

/-- Outer loop of `findBestTrade` (source lines 27-78): while
`currentIndex < prices.length - 1`, run the inner scan with
`isOptimalFound := true` and `minPriceDrop := 0`; return early when no drop
was seen; otherwise jump to `nextTradeStartIndex` when it lies in
`[1, prices.length - 2]`, else advance by one.  `none` marks fuel
exhaustion with the loop still active (proved unreachable for fuel
`p.length` in `outerLoop_isSome`). -/
def outerLoop (p : List Int) : Nat → Nat → Nat → Nat → Int → Option (Nat × Nat)
  | 0, c, bB, bS, _ =>
    if c + 1 < p.length then none else some (bB, bS)
  | fuel + 1, c, bB, bS, next =>
    if c + 1 < p.length then
      match innerScan p c p.length (c + 1) bB bS 0 true next with
      | ((bB', bS'), opt', next') =>
        if opt' then some (bB', bS')
        else if 1 ≤ next' ∧ next' ≤ (p.length : Int) - 2 then
          outerLoop p fuel next'.toNat bB' bS' next'
        else
          outerLoop p fuel (c + 1) bB' bS' next'
    else some (bB, bS)

/-- `findBestTrade` (source lines 9-82): quadratic scan with restart logic.
Initial state `bestBuyIndex = bestSellIndex = 0`, `nextTradeStartIndex = -1`;
the outer loop body runs at most `p.length` times (see `outerLoop_isSome`),
so fuel `p.length` suffices and the `getD (0, 0)` branch is unreachable. -/
def findBestTrade (p : List Int) : Nat × Nat :=
  (outerLoop p p.length 0 0 0 (-1)).getD (0, 0)

/-- Single pass of `findBestTradeFast` (source lines 109-123): walk `i`
upward; a strictly smaller price moves the minimum tracker, otherwise a
strictly larger profit updates the best trade. -/
def fastLoop (p : List Int) : Nat → Nat → Nat → Int → Nat → Nat → Nat × Nat
  | 0, _, _, _, bB, bS => (bB, bS)
  | fuel + 1, i, minIdx, maxP, bB, bS =>
    if i < p.length then
      if priceAt p i < priceAt p minIdx then
        fastLoop p fuel (i + 1) i maxP bB bS
      else
        let cur := priceAt p i - priceAt p minIdx
        if cur > maxP then
          fastLoop p fuel (i + 1) minIdx cur minIdx i
        else
          fastLoop p fuel (i + 1) minIdx maxP bB bS
    else (bB, bS)

/-- `findBestTradeFast` (source lines 98-125): return `(0, 0)` for fewer than
two prices, else run the single pass from `i = 1` with
`minPriceIndex = maxProfit = bestBuyIndex = bestSellIndex = 0`.
Fuel `p.length` exceeds the `p.length - 1` iterations of the loop. -/
def findBestTradeFast (p : List Int) : Nat × Nat :=
  if p.length < 2 then (0, 0) else fastLoop p p.length 1 0 0 0 0

/-- Variant inner scan with the comparison baseline `currentBestProfit`
hoisted: `cBP` is computed once per outer iteration and fixed for the whole
inner scan, instead of being recomputed from the current best pair on every
inner step. -/
def innerScanH (p : List Int) (c : Nat) (cBP : Int) :
    Nat → Nat → Nat → Nat → Int → Bool → Int → (Nat × Nat) × Bool × Int
  | 0, _, bB, bS, _, opt, next => ((bB, bS), opt, next)
  | fuel + 1, f, bB, bS, mPD, opt, next =>
    if f < p.length then
      let pot := priceAt p f - priceAt p c
      let bB' := if pot > cBP then c else bB
      let bS' := if pot > cBP then f else bS
      let mPD' := if pot < mPD then pot else mPD
      let next' := if pot < mPD then (f : Int) else next
      let opt' := if pot < mPD then false else opt
      innerScanH p c cBP fuel (f + 1) bB' bS' mPD' opt' next'
    else ((bB, bS), opt, next)

/-- Outer loop of the hoisted variant: identical to `outerLoop` except the
baseline `prices[bestSellIndex] - prices[bestBuyIndex]` is computed once at
the top of each outer iteration. -/
def outerLoopH (p : List Int) : Nat → Nat → Nat → Nat → Int → Option (Nat × Nat)
  | 0, c, bB, bS, _ =>
    if c + 1 < p.length then none else some (bB, bS)
  | fuel + 1, c, bB, bS, next =>
    if c + 1 < p.length then
      match innerScanH p c (priceAt p bS - priceAt p bB) p.length (c + 1) bB bS 0 true next with
      | ((bB', bS'), opt', next') =>
        if opt' then some (bB', bS')
        else if 1 ≤ next' ∧ next' ≤ (p.length : Int) - 2 then
          outerLoopH p fuel next'.toNat bB' bS' next'
        else
          outerLoopH p fuel (c + 1) bB' bS' next'
    else some (bB, bS)

/-- The hoisted-baseline variant of `findBestTrade` named by claim C9. -/
def findBestTradeHoisted (p : List Int) : Nat × Nat :=
  (outerLoopH p p.length 0 0 0 (-1)).getD (0, 0)

/-- Variant inner scan that caches `currentBestProfit` in a state variable
refreshed exactly when the best pair is updated (set to the updating
`potentialProfit`), instead of recomputing it on every inner step. -/
def innerScanC (p : List Int) (c : Nat) :
    Nat → Nat → Nat → Nat → Int → Int → Bool → Int → (Nat × Nat) × Int × Bool × Int
  | 0, _, bB, bS, cBP, _, opt, next => ((bB, bS), cBP, opt, next)
  | fuel + 1, f, bB, bS, cBP, mPD, opt, next =>
    if f < p.length then
      let pot := priceAt p f - priceAt p c
      let bB' := if pot > cBP then c else bB
      let bS' := if pot > cBP then f else bS
      let cBP' := if pot > cBP then pot else cBP
      let mPD' := if pot < mPD then pot else mPD
      let next' := if pot < mPD then (f : Int) else next
      let opt' := if pot < mPD then false else opt
      innerScanC p c fuel (f + 1) bB' bS' cBP' mPD' opt' next'
    else ((bB, bS), cBP, opt, next)

/-- Outer loop of the cached variant: threads the cached baseline through
outer iterations, starting from `0` as in the source's initialisation. -/
def outerLoopC (p : List Int) : Nat → Nat → Nat → Nat → Int → Int → Option (Nat × Nat)
  | 0, c, bB, bS, _, _ =>
    if c + 1 < p.length then none else some (bB, bS)
  | fuel + 1, c, bB, bS, cBP, next =>
    if c + 1 < p.length then
      match innerScanC p c p.length (c + 1) bB bS cBP 0 true next with
      | ((bB', bS'), cBP', opt', next') =>
        if opt' then some (bB', bS')
        else if 1 ≤ next' ∧ next' ≤ (p.length : Int) - 2 then
          outerLoopC p fuel next'.toNat bB' bS' cBP' next'
        else
          outerLoopC p fuel (c + 1) bB' bS' cBP' next'
    else some (bB, bS)

/-- The cached-baseline variant of `findBestTrade`: the observationally
faithful simplification of the per-step recomputation. -/
def findBestTradeCached (p : List Int) : Nat × Nat :=
  (outerLoopC p p.length 0 0 0 0 (-1)).getD (0, 0)

/-- Bounds-checked inner scan: every array read of the source's inner loop
(`prices[futureIndex]`, `prices[currentIndex]`, `prices[bestSellIndex]`,
`prices[bestBuyIndex]`) goes through `List.getElem?`; any out-of-bounds read
aborts with `none`. -/
def innerScanB (p : List Int) (c : Nat) :
    Nat → Nat → Nat → Nat → Int → Bool → Int → Option ((Nat × Nat) × Bool × Int)
  | 0, _, bB, bS, _, opt, next => some ((bB, bS), opt, next)
  | fuel + 1, f, bB, bS, mPD, opt, next =>
    if f < p.length then
      match p[f]?, p[c]?, p[bS]?, p[bB]? with
      | some pf, some pc, some ps, some pb =>
        let pot := pf - pc
        let cBP := ps - pb
        let bB' := if pot > cBP then c else bB
        let bS' := if pot > cBP then f else bS
        let mPD' := if pot < mPD then pot else mPD
        let next' := if pot < mPD then (f : Int) else next
        let opt' := if pot < mPD then false else opt
        innerScanB p c fuel (f + 1) bB' bS' mPD' opt' next'
      | _, _, _, _ => none
    else some ((bB, bS), opt, next)

/-- Bounds-checked outer loop (the outer loop itself performs no reads). -/
def outerLoopB (p : List Int) : Nat → Nat → Nat → Nat → Int → Option (Nat × Nat)
  | 0, c, bB, bS, _ =>
    if c + 1 < p.length then none else some (bB, bS)
  | fuel + 1, c, bB, bS, next =>
    if c + 1 < p.length then
      match innerScanB p c p.length (c + 1) bB bS 0 true next with
      | some ((bB', bS'), opt', next') =>
        if opt' then some (bB', bS')
        else if 1 ≤ next' ∧ next' ≤ (p.length : Int) - 2 then
          outerLoopB p fuel next'.toNat bB' bS' next'
        else
          outerLoopB p fuel (c + 1) bB' bS' next'
      | none => none
    else some (bB, bS)

/-- Bounds-checked `findBestTrade`: `some` exactly when no fault occurs. -/
def findBestTradeB (p : List Int) : Option (Nat × Nat) :=
  outerLoopB p p.length 0 0 0 (-1)

/-- Bounds-checked single pass: the reads `prices[i]` and
`prices[minPriceIndex]` go through `List.getElem?`. -/
def fastLoopB (p : List Int) : Nat → Nat → Nat → Int → Nat → Nat → Option (Nat × Nat)
  | 0, _, _, _, bB, bS => some (bB, bS)
  | fuel + 1, i, minIdx, maxP, bB, bS =>
    if i < p.length then
      match p[i]?, p[minIdx]? with
      | some pi, some pm =>
        if pi < pm then
          fastLoopB p fuel (i + 1) i maxP bB bS
        else
          let cur := pi - pm
          if cur > maxP then
            fastLoopB p fuel (i + 1) minIdx cur minIdx i
          else
            fastLoopB p fuel (i + 1) minIdx maxP bB bS
      | _, _ => none
    else some (bB, bS)

/-- Bounds-checked `findBestTradeFast`. -/
def findBestTradeFastB (p : List Int) : Option (Nat × Nat) :=
  if p.length < 2 then some (0, 0) else fastLoopB p p.length 1 0 0 0 0


/-- When the outer-loop guard fails the loop returns the current best pair,
whatever the fuel. -/
theorem outerLoop_stop (p : List Int) (fuel c bB bS : Nat) (next : Int)
    (h : ¬ c + 1 < p.length) :
    outerLoop p fuel c bB bS next = some (bB, bS) := by
  cases fuel <;> simp [outerLoop, h]

/-- The inner scan only moves `nextTradeStartIndex` to a strictly later
index than the candidate buy index, and that index is in range.  (This is
what makes the outer index strictly increase across a restart jump.) -/
theorem innerScan_next (p : List Int) (c : Nat) :
    ∀ fuel f bB bS mPD (opt : Bool) next,
      c < f →
      (opt = false → (c : Int) < next ∧ next < p.length) →
      ((innerScan p c fuel f bB bS mPD opt next).2.1 = false →
        (c : Int) < (innerScan p c fuel f bB bS mPD opt next).2.2 ∧
        (innerScan p c fuel f bB bS mPD opt next).2.2 < p.length) := by
  intro fuel
  induction fuel with
  | zero =>
    intro f bB bS mPD opt next hcf h
    simpa [innerScan] using h
  | succ fuel ih =>
    intro f bB bS mPD opt next hcf h
    rw [innerScan]
    by_cases hf : f < p.length
    · simp only [hf, if_true]
      apply ih (f + 1) _ _ _ _ _ (Nat.lt_succ_of_lt hcf)
      by_cases hd : priceAt p f - priceAt p c < mPD
      · simp only [hd, if_true]
        intro _
        constructor
        · exact_mod_cast hcf
        · exact_mod_cast hf
      · simpa only [hd, if_false] using h
    · simpa [hf] using h

/-- Fuel `p.length` is enough for the outer loop: every iteration, whether a
restart jump or a plain increment, strictly increases the outer index, so
the loop body runs at most `p.length - c - 1` more times. -/
theorem outerLoop_isSome (p : List Int) :
    ∀ fuel c bB bS next, p.length ≤ fuel + c + 1 →
      (outerLoop p fuel c bB bS next).isSome := by
  intro fuel
  induction fuel with
  | zero =>
    intro c bB bS next hfc
    rw [outerLoop_stop p 0 c bB bS next (by omega)]
    rfl
  | succ fuel ih =>
    intro c bB bS next hfc
    by_cases hg : c + 1 < p.length
    · rcases hInner : innerScan p c p.length (c + 1) bB bS 0 true next with
        ⟨⟨bB', bS'⟩, opt', next'⟩
      rw [outerLoop, if_pos hg, hInner]
      by_cases hopt : opt' = true
      · simp [hopt]
      · have hnext : (c : Int) < next' ∧ next' < p.length := by
          have h0 := innerScan_next p c p.length (c + 1) bB bS 0 true next
            (Nat.lt_succ_self c) (by simp)
          rw [hInner] at h0
          exact h0 (by simpa using hopt)
        simp only [hopt, if_false, Bool.false_eq_true]
        by_cases hj : 1 ≤ next' ∧ next' ≤ (p.length : Int) - 2
        · rw [if_pos hj]
          exact ih next'.toNat bB' bS' next' (by omega)
        · rw [if_neg hj]
          exact ih (c + 1) bB' bS' next' (by omega)
    · rw [outerLoop_stop p _ c bB bS next hg]
      rfl

/-- Inner-scan invariant: the best pair keeps `buy ≤ sell`, `sell` in range,
and non-negative recorded profit (updates only happen when the candidate
profit strictly beats the current, non-negative, best profit). -/
theorem innerScan_inv (p : List Int) (c : Nat) :
    ∀ fuel f bB bS mPD (opt : Bool) next,
      c < f → bB ≤ bS → bS < p.length → 0 ≤ pairProfit p bB bS →
      ((innerScan p c fuel f bB bS mPD opt next).1.1 ≤
          (innerScan p c fuel f bB bS mPD opt next).1.2 ∧
        (innerScan p c fuel f bB bS mPD opt next).1.2 < p.length ∧
        0 ≤ pairProfit p (innerScan p c fuel f bB bS mPD opt next).1.1
          (innerScan p c fuel f bB bS mPD opt next).1.2) := by
  intro fuel
  induction fuel with
  | zero =>
    intro f bB bS mPD opt next _ hbs hsl hpr
    exact ⟨hbs, hsl, hpr⟩
  | succ fuel ih =>
    intro f bB bS mPD opt next hcf hbs hsl hpr
    rw [innerScan]
    by_cases hf : f < p.length
    · simp only [hf, if_true]
      by_cases hup : priceAt p f - priceAt p c > priceAt p bS - priceAt p bB
      · simp only [hup, if_true]
        apply ih (f + 1) c f _ _ _ (Nat.lt_succ_of_lt hcf) (Nat.le_of_lt hcf) hf
        have : pairProfit p bB bS ≤ pairProfit p c f := le_of_lt hup
        exact le_trans hpr this
      · simp only [hup, if_false]
        exact ih (f + 1) bB bS _ _ _ (Nat.lt_succ_of_lt hcf) hbs hsl hpr
    · simp only [hf, if_false]
      exact ⟨hbs, hsl, hpr⟩

/-- Outer-loop invariant: any pair the outer loop returns keeps
`buy ≤ sell`, `sell` in range, and non-negative recorded profit. -/
theorem outerLoop_inv (p : List Int) :
    ∀ fuel c bB bS next r,
      bB ≤ bS → bS < p.length → 0 ≤ pairProfit p bB bS →
      outerLoop p fuel c bB bS next = some r →
      r.1 ≤ r.2 ∧ r.2 < p.length ∧ 0 ≤ pairProfit p r.1 r.2 := by
  intro fuel
  induction fuel with
  | zero =>
    intro c bB bS next r hbs hsl hpr hr
    rw [outerLoop] at hr
    by_cases hg : c + 1 < p.length
    · simp [hg] at hr
    · rw [if_neg hg, Option.some.injEq] at hr
      subst hr
      exact ⟨hbs, hsl, hpr⟩
  | succ fuel ih =>
    intro c bB bS next r hbs hsl hpr hr
    by_cases hg : c + 1 < p.length
    · rcases hInner : innerScan p c p.length (c + 1) bB bS 0 true next with
        ⟨⟨bB', bS'⟩, opt', next'⟩
      rw [outerLoop, if_pos hg, hInner] at hr
      have hinv := innerScan_inv p c p.length (c + 1) bB bS 0 true next
        (Nat.lt_succ_self c) hbs hsl hpr
      rw [hInner] at hinv
      by_cases hopt : opt' = true
      · simp only [hopt, if_true, Option.some.injEq] at hr
        subst hr
        exact hinv
      · simp only [hopt, if_false, Bool.false_eq_true] at hr
        by_cases hj : 1 ≤ next' ∧ next' ≤ (p.length : Int) - 2
        · rw [if_pos hj] at hr
          exact ih next'.toNat bB' bS' next' r hinv.1 hinv.2.1 hinv.2.2 hr
        · rw [if_neg hj] at hr
          exact ih (c + 1) bB' bS' next' r hinv.1 hinv.2.1 hinv.2.2 hr
    · rw [outerLoop_stop p _ c bB bS next hg, Option.some.injEq] at hr
      subst hr
      exact ⟨hbs, hsl, hpr⟩

/-- Main invariant of the linear pass: on exit it has either found no
positive-profit pair anywhere (and reports `(0, 0)`) or it returns a
maximal-profit pair with strictly positive profit. -/
theorem fastLoop_spec (p : List Int) :
    ∀ fuel i minIdx maxP bB bS,
      p.length ≤ fuel + i →
      0 < i → minIdx < i →
      (∀ j, j < i → priceAt p minIdx ≤ priceAt p j) →
      0 ≤ maxP →
      (∀ b s, b < s → s < i → pairProfit p b s ≤ maxP) →
      ((maxP = 0 ∧ bB = 0 ∧ bS = 0) ∨
        (bB < bS ∧ bS < i ∧ bS < p.length ∧ pairProfit p bB bS = maxP ∧ 0 < maxP)) →
      ((fastLoop p fuel i minIdx maxP bB bS = (0, 0) ∧
          ∀ b s, b < s → s < p.length → pairProfit p b s ≤ 0) ∨
        ((fastLoop p fuel i minIdx maxP bB bS).1 <
            (fastLoop p fuel i minIdx maxP bB bS).2 ∧
          (fastLoop p fuel i minIdx maxP bB bS).2 < p.length ∧
          0 < pairProfit p (fastLoop p fuel i minIdx maxP bB bS).1
            (fastLoop p fuel i minIdx maxP bB bS).2 ∧
          ∀ b s, b < s → s < p.length →
            pairProfit p b s ≤ pairProfit p (fastLoop p fuel i minIdx maxP bB bS).1
              (fastLoop p fuel i minIdx maxP bB bS).2)) := by
  intro fuel
  induction fuel with
  | zero =>
    intro i minIdx maxP bB bS hfuel hi hmin hminv hmax0 hub hach
    rw [fastLoop]
    rcases hach with ⟨hm0, hb0, hs0⟩ | ⟨hlt, hsi, hsl, hpr, hpos⟩
    · left
      subst hm0 hb0 hs0
      exact ⟨rfl, fun b s hbs hsp => hub b s hbs (by omega)⟩
    · right
      refine ⟨hlt, hsl, by rw [hpr]; exact hpos, ?_⟩
      intro b s hbs hsp
      rw [hpr]
      exact hub b s hbs (by omega)
  | succ fuel ih =>
    intro i minIdx maxP bB bS hfuel hi hmin hminv hmax0 hub hach
    rw [fastLoop]
    by_cases hil : i < p.length
    · simp only [hil, if_true]
      by_cases hnewmin : priceAt p i < priceAt p minIdx
      · simp only [hnewmin, if_true]
        apply ih (i + 1) i maxP bB bS (by omega) (by omega) (Nat.lt_succ_self i)
        · intro j hj
          rcases Nat.lt_succ_iff_lt_or_eq.mp hj with hj' | hj'
          · exact le_trans (le_of_lt hnewmin) (hminv j hj')
          · rw [hj']
        · exact hmax0
        · intro b s hbs hsi
          rcases Nat.lt_succ_iff_lt_or_eq.mp hsi with hs' | hs'
          · exact hub b s hbs hs'
          · subst hs'
            have hb : priceAt p minIdx ≤ priceAt p b := hminv b (by omega)
            have : pairProfit p b s ≤ 0 := by
              unfold pairProfit
              have := le_of_lt hnewmin
              omega
            exact le_trans this hmax0
        · rcases hach with ⟨hm0, hb0, hs0⟩ | ⟨hlt, hsi', hsl', hpr, hpos⟩
          · exact Or.inl ⟨hm0, hb0, hs0⟩
          · exact Or.inr ⟨hlt, by omega, hsl', hpr, hpos⟩
      · simp only [hnewmin, if_false]
        by_cases hbig : priceAt p i - priceAt p minIdx > maxP
        · simp only [hbig, if_true]
          apply ih (i + 1) minIdx (priceAt p i - priceAt p minIdx) minIdx i
            (by omega) (by omega) (by omega)
          · intro j hj
            rcases Nat.lt_succ_iff_lt_or_eq.mp hj with hj' | hj'
            · exact hminv j hj'
            · rw [hj']
              omega
          · omega
          · intro b s hbs hsi
            rcases Nat.lt_succ_iff_lt_or_eq.mp hsi with hs' | hs'
            · exact le_trans (hub b s hbs hs') (le_of_lt hbig)
            · subst hs'
              have hb : priceAt p minIdx ≤ priceAt p b := hminv b (by omega)
              unfold pairProfit
              omega
          · right
            refine ⟨hmin, Nat.lt_succ_self i, hil, ?_, by omega⟩
            unfold pairProfit
            rfl
        · simp only [hbig, if_false]
          apply ih (i + 1) minIdx maxP bB bS (by omega) (by omega) (by omega)
            _ hmax0 _ _
          · intro j hj
            rcases Nat.lt_succ_iff_lt_or_eq.mp hj with hj' | hj'
            · exact hminv j hj'
            · rw [hj']
              exact not_lt.mp hnewmin
          · intro b s hbs hsi
            rcases Nat.lt_succ_iff_lt_or_eq.mp hsi with hs' | hs'
            · exact hub b s hbs hs'
            · subst hs'
              have hb : priceAt p minIdx ≤ priceAt p b := hminv b (by omega)
              unfold pairProfit
              omega
          · rcases hach with ⟨hm0, hb0, hs0⟩ | ⟨hlt, hsi', hsl', hpr, hpos⟩
            · exact Or.inl ⟨hm0, hb0, hs0⟩
            · exact Or.inr ⟨hlt, by omega, hsl', hpr, hpos⟩
    · simp only [hil, if_false]
      rcases hach with ⟨hm0, hb0, hs0⟩ | ⟨hlt, hsi, hsl, hpr, hpos⟩
      · left
        subst hm0 hb0 hs0
        exact ⟨rfl, fun b s hbs hsp => hub b s hbs (by omega)⟩
      · right
        refine ⟨hlt, hsl, by rw [hpr]; exact hpos, ?_⟩
        intro b s hbs hsp
        rw [hpr]
        exact hub b s hbs (by omega)

/-- An in-bounds checked read agrees with the total `getD` model. -/
theorem priceAt_some (p : List Int) (i : Nat) (h : i < p.length) :
    p[i]? = some (priceAt p i) := by
  rw [List.getElem?_eq_getElem h, priceAt, List.getD_eq_getElem p 0 h]

/-- The cached-baseline inner scan agrees with the recomputing one whenever
its cache equals the profit of the current best pair, and it maintains that
equation. -/
theorem innerScanC_eq (p : List Int) (c : Nat) :
    ∀ fuel f bB bS cBP mPD (opt : Bool) next,
      cBP = pairProfit p bB bS →
      innerScanC p c fuel f bB bS cBP mPD opt next =
        ((innerScan p c fuel f bB bS mPD opt next).1,
          pairProfit p (innerScan p c fuel f bB bS mPD opt next).1.1
            (innerScan p c fuel f bB bS mPD opt next).1.2,
          (innerScan p c fuel f bB bS mPD opt next).2) := by
  intro fuel
  induction fuel with
  | zero =>
    intro f bB bS cBP mPD opt next hcBP
    simp [innerScanC, innerScan, hcBP]
  | succ fuel ih =>
    intro f bB bS cBP mPD opt next hcBP
    unfold pairProfit at hcBP
    subst hcBP
    rw [innerScanC, innerScan]
    by_cases hf : f < p.length
    · simp only [hf, if_true]
      by_cases hup : priceAt p f - priceAt p c > priceAt p bS - priceAt p bB
      · simp only [hup, if_true]
        exact ih (f + 1) c f _ _ _ _ rfl
      · simp only [hup, if_false]
        exact ih (f + 1) bB bS _ _ _ _ rfl
    · simp [hf, pairProfit]

/-- The cached-baseline outer loop agrees with the recomputing one. -/
theorem outerLoopC_eq (p : List Int) :
    ∀ fuel c bB bS cBP next, cBP = pairProfit p bB bS →
      outerLoopC p fuel c bB bS cBP next = outerLoop p fuel c bB bS next := by
  intro fuel
  induction fuel with
  | zero =>
    intro c bB bS cBP next _
    rfl
  | succ fuel ih =>
    intro c bB bS cBP next hcBP
    by_cases hg : c + 1 < p.length
    · rw [outerLoopC, outerLoop, if_pos hg, if_pos hg,
        innerScanC_eq p c p.length (c + 1) bB bS cBP 0 true next hcBP]
      rcases hI : innerScan p c p.length (c + 1) bB bS 0 true next with
        ⟨⟨bB', bS'⟩, opt', next'⟩
      simp only [hI]
      by_cases hopt : opt' = true
      · simp [hopt]
      · simp only [hopt, if_false, Bool.false_eq_true]
        by_cases hj : 1 ≤ next' ∧ next' ≤ (p.length : Int) - 2
        · rw [if_pos hj, if_pos hj]
          exact ih next'.toNat bB' bS' _ next' rfl
        · rw [if_neg hj, if_neg hj]
          exact ih (c + 1) bB' bS' _ next' rfl
    · cases fuel <;> simp [outerLoopC, outerLoop, hg]

/-- The bounds-checked inner scan never aborts and agrees with the total
model, provided the tracked indices are in range. -/
theorem innerScanB_eq (p : List Int) (c : Nat) (hc : c < p.length) :
    ∀ fuel f bB bS mPD (opt : Bool) next, bB < p.length → bS < p.length →
      innerScanB p c fuel f bB bS mPD opt next =
        some (innerScan p c fuel f bB bS mPD opt next) := by
  intro fuel
  induction fuel with
  | zero =>
    intro f bB bS mPD opt next _ _
    rfl
  | succ fuel ih =>
    intro f bB bS mPD opt next hbB hbS
    rw [innerScanB, innerScan]
    by_cases hf : f < p.length
    · simp only [hf, if_true, priceAt_some p f hf, priceAt_some p c hc,
        priceAt_some p bS hbS, priceAt_some p bB hbB]
      by_cases hup : priceAt p f - priceAt p c > priceAt p bS - priceAt p bB
      · simp only [hup, if_true]
        exact ih (f + 1) c f _ _ _ hc hf
      · simp only [hup, if_false]
        exact ih (f + 1) bB bS _ _ _ hbB hbS
    · simp [hf]

/-- The bounds-checked outer loop never aborts and agrees with the total
model, provided the best pair is in range (as the invariant maintains). -/
theorem outerLoopB_eq (p : List Int) :
    ∀ fuel c bB bS next, bB ≤ bS → bS < p.length →
      0 ≤ pairProfit p bB bS →
      outerLoopB p fuel c bB bS next = outerLoop p fuel c bB bS next := by
  intro fuel
  induction fuel with
  | zero =>
    intro c bB bS next _ _ _
    rfl
  | succ fuel ih =>
    intro c bB bS next hbs hsl hpr
    by_cases hg : c + 1 < p.length
    · rw [outerLoopB, outerLoop, if_pos hg, if_pos hg,
        innerScanB_eq p c (by omega) p.length (c + 1) bB bS 0 true next
          (by omega) hsl]
      have hinv := innerScan_inv p c p.length (c + 1) bB bS 0 true next
        (Nat.lt_succ_self c) hbs hsl hpr
      rcases hI : innerScan p c p.length (c + 1) bB bS 0 true next with
        ⟨⟨bB', bS'⟩, opt', next'⟩
      rw [hI] at hinv
      simp only [hI]
      by_cases hopt : opt' = true
      · simp [hopt]
      · simp only [hopt, if_false, Bool.false_eq_true]
        by_cases hj : 1 ≤ next' ∧ next' ≤ (p.length : Int) - 2
        · rw [if_pos hj, if_pos hj]
          exact ih next'.toNat bB' bS' next' hinv.1 hinv.2.1 hinv.2.2
        · rw [if_neg hj, if_neg hj]
          exact ih (c + 1) bB' bS' next' hinv.1 hinv.2.1 hinv.2.2
    · cases fuel <;> simp [outerLoopB, outerLoop, hg]

/-- The bounds-checked single pass never aborts and agrees with the total
model, provided the minimum tracker is in range. -/
theorem fastLoopB_eq (p : List Int) :
    ∀ fuel i minIdx maxP bB bS, minIdx < p.length →
      fastLoopB p fuel i minIdx maxP bB bS =
        some (fastLoop p fuel i minIdx maxP bB bS) := by
  intro fuel
  induction fuel with
  | zero =>
    intro i minIdx maxP bB bS _
    rfl
  | succ fuel ih =>
    intro i minIdx maxP bB bS hm
    rw [fastLoopB, fastLoop]
    by_cases hil : i < p.length
    · simp only [hil, if_true, priceAt_some p i hil, priceAt_some p minIdx hm]
      by_cases hnewmin : priceAt p i < priceAt p minIdx
      · simp only [hnewmin, if_true]
        exact ih (i + 1) i maxP bB bS hil
      · simp only [hnewmin, if_false]
        by_cases hbig : priceAt p i - priceAt p minIdx > maxP
        · simp only [hbig, if_true]
          exact ih (i + 1) minIdx _ minIdx i hm
        · simp only [hbig, if_false]
          exact ih (i + 1) minIdx maxP bB bS hm
    · simp [hil]

/-- Both finders return `(0, 0)` on sequences shorter than two elements. -/
theorem short_both (p : List Int) (h : p.length ≤ 1) :
    findBestTrade p = (0, 0) ∧ findBestTradeFast p = (0, 0) := by
  constructor
  · rw [findBestTrade, outerLoop_stop p p.length 0 0 0 (-1) (by omega)]
    rfl
  · rw [findBestTradeFast, if_pos (by omega)]

/-- Running the outer loop with fuel `p.length` yields `findBestTrade p`. -/
theorem outerLoop_run (p : List Int) :
    outerLoop p p.length 0 0 0 (-1) = some (findBestTrade p) := by
  have h := outerLoop_isSome p p.length 0 0 0 (-1) (by omega)
  rcases Option.isSome_iff_exists.mp h with ⟨r, hr⟩
  rw [findBestTrade, hr, Option.getD_some]

/-- Full behaviour of the linear finder: it reports `(0, 0)` exactly when no
pair `buy < sell` has positive profit, and otherwise a maximal pair. -/
theorem fast_opt (p : List Int) :
    (findBestTradeFast p = (0, 0) ∧
        ∀ b s, b < s → s < p.length → pairProfit p b s ≤ 0) ∨
      ((findBestTradeFast p).1 < (findBestTradeFast p).2 ∧
        (findBestTradeFast p).2 < p.length ∧
        0 < pairProfit p (findBestTradeFast p).1 (findBestTradeFast p).2 ∧
        ∀ b s, b < s → s < p.length →
          pairProfit p b s ≤
            pairProfit p (findBestTradeFast p).1 (findBestTradeFast p).2) := by
  by_cases h2 : p.length < 2
  · left
    constructor
    · rw [findBestTradeFast, if_pos h2]
    · intro b s hbs hsp
      omega
  · have h := fastLoop_spec p p.length 1 0 0 0 0 (by omega) (by omega) (by omega)
      (fun j hj => by
        have hj0 : j = 0 := by omega
        rw [hj0])
      (le_refl 0)
      (fun b s hbs hsi => by omega)
      (Or.inl ⟨rfl, rfl, rfl⟩)
    rw [findBestTradeFast, if_neg h2]
    exact h

/-- Claim C1 (divergence exhibit): on the input `[5, 1, 10, 0, 2]` the two
finders return pairs of different realized profit — `findBestTrade` keeps
`(0, 2)` with profit 5, while `findBestTradeFast` finds `(1, 2)` with
profit 9 — contradicting the agreement property. -/
theorem claimC1_disagreement :
    findBestTrade [5, 1, 10, 0, 2] = (0, 2) ∧
      findBestTradeFast [5, 1, 10, 0, 2] = (1, 2) ∧
      pairProfit [5, 1, 10, 0, 2] 0 2 = 5 ∧
      pairProfit [5, 1, 10, 0, 2] 1 2 = 9 := by
  decide

/-- Claim C2 (divergence exhibit): on `[5, 1, 10, 0, 2]` the pair returned
by `findBestTrade` has strictly smaller profit than the valid pair
`(1, 2)`, so the quadratic finder does not maximize profit: its restart
jump from index 0 to the deepest-drop index 3 skips the buy candidate 1
whose best sell (index 2) lies before the jump target. -/
theorem claimC2_not_maximal :
    findBestTrade [5, 1, 10, 0, 2] = (0, 2) ∧
      pairProfit [5, 1, 10, 0, 2]
          (findBestTrade [5, 1, 10, 0, 2]).1 (findBestTrade [5, 1, 10, 0, 2]).2 <
        pairProfit [5, 1, 10, 0, 2] 1 2 ∧
      1 < 2 ∧ 2 < ([5, 1, 10, 0, 2] : List Int).length := by
  decide

/-- Claim C3: `findBestTradeFast` returns a pair maximizing
`prices[sell] - prices[buy]` over all pairs `buy < sell` whenever that
maximum is strictly positive, and returns `(0, 0)` otherwise (in particular
for fewer than two prices or when no pair has positive profit). -/
theorem claimC3_fast_optimal (p : List Int) :
    (findBestTradeFast p = (0, 0) ∧
        ∀ b s, b < s → s < p.length → pairProfit p b s ≤ 0) ∨
      ((findBestTradeFast p).1 < (findBestTradeFast p).2 ∧
        (findBestTradeFast p).2 < p.length ∧
        0 < pairProfit p (findBestTradeFast p).1 (findBestTradeFast p).2 ∧
        ∀ b s, b < s → s < p.length →
          pairProfit p b s ≤
            pairProfit p (findBestTradeFast p).1 (findBestTradeFast p).2) :=
  fast_opt p

/-- Claim C4: both finders return exactly the specified index pair on each
of the seven concrete scenario inputs of the test suite. -/
theorem claimC4_scenarios :
    findBestTrade [7, 1, 5, 3, 6, 4] = (1, 4) ∧
      findBestTradeFast [7, 1, 5, 3, 6, 4] = (1, 4) ∧
      findBestTrade [7, 6, 4, 3, 1] = (0, 0) ∧
      findBestTradeFast [7, 6, 4, 3, 1] = (0, 0) ∧
      findBestTrade [1, 2, 3, 4, 5] = (0, 4) ∧
      findBestTradeFast [1, 2, 3, 4, 5] = (0, 4) ∧
      findBestTrade [3, 3, 3] = (0, 0) ∧
      findBestTradeFast [3, 3, 3] = (0, 0) ∧
      findBestTrade [20, 18, 15, 8, 3, 6, 10, 4, 12] = (4, 8) ∧
      findBestTradeFast [20, 18, 15, 8, 3, 6, 10, 4, 12] = (4, 8) ∧
      findBestTrade ([] : List Int) = (0, 0) ∧
      findBestTradeFast ([] : List Int) = (0, 0) ∧
      findBestTrade [5] = (0, 0) ∧
      findBestTradeFast [5] = (0, 0) ∧
      findBestTrade [1, 12, 1, 12] = (0, 1) ∧
      findBestTradeFast [1, 12, 1, 12] = (0, 1) := by
  decide

/-- Claim C5: for sequences with at least two elements, both finders return
a pair with `0 ≤ buyIndex ≤ sellIndex ≤ length - 1`. -/
theorem claimC5_bounds (p : List Int) (h2 : 2 ≤ p.length) :
    (findBestTrade p).1 ≤ (findBestTrade p).2 ∧
      (findBestTrade p).2 ≤ p.length - 1 ∧
      (findBestTradeFast p).1 ≤ (findBestTradeFast p).2 ∧
      (findBestTradeFast p).2 ≤ p.length - 1 := by
  have hq := outerLoop_inv p p.length 0 0 0 (-1) (findBestTrade p)
    (le_refl 0) (by omega) (by simp [pairProfit]) (outerLoop_run p)
  refine ⟨hq.1, by have := hq.2.1; omega, ?_, ?_⟩
  · rcases fast_opt p with ⟨h00, _⟩ | ⟨hlt, _, _, _⟩
    · rw [h00]
    · exact le_of_lt hlt
  · rcases fast_opt p with ⟨h00, _⟩ | ⟨_, hsl, _, _⟩
    · rw [h00]
      omega
    · omega

/-- Witness for C5 at the concrete input [1, 2]. -/
theorem claimC5_bounds_witness :
    2 ≤ ([1, 2] : List Int).length ∧
      ((findBestTrade [1, 2]).1 ≤ (findBestTrade [1, 2]).2 ∧
        (findBestTrade [1, 2]).2 ≤ ([1, 2] : List Int).length - 1 ∧
        (findBestTradeFast [1, 2]).1 ≤ (findBestTradeFast [1, 2]).2 ∧
        (findBestTradeFast [1, 2]).2 ≤ ([1, 2] : List Int).length - 1) :=
  ⟨by decide, claimC5_bounds [1, 2] (by decide)⟩

/-- Claim C6: both finders are total and every array read they perform is in
bounds — the bounds-checked variants, which abort with `none` on any
out-of-bounds read, always return `some` of the result of the total model. -/
theorem claimC6_no_oob (p : List Int) :
    findBestTradeB p = some (findBestTrade p) ∧
      findBestTradeFastB p = some (findBestTradeFast p) := by
  constructor
  · by_cases h2 : p.length ≤ 1
    · have hs := (short_both p h2).1
      rw [findBestTradeB, hs]
      cases hp : p.length with
      | zero => simp [outerLoopB, hp]
      | succ n =>
        have hn : n = 0 := by omega
        subst hn
        simp [outerLoopB, hp]
    · rw [findBestTradeB,
        outerLoopB_eq p p.length 0 0 0 (-1) (le_refl 0) (by omega)
          (by simp [pairProfit]),
        outerLoop_run p]
  · by_cases h2 : p.length < 2
    · rw [findBestTradeFastB, if_pos h2, findBestTradeFast, if_pos h2]
    · rw [findBestTradeFastB, if_neg h2, findBestTradeFast, if_neg h2,
        fastLoopB_eq p p.length 1 0 0 0 0 (by omega)]

/-- Claim C7: the realized profit of the returned pair is non-negative for
both finders on every input (it is 0 on the empty sequence, where both
return `(0, 0)`). -/
theorem claimC7_nonneg (p : List Int) :
    0 ≤ pairProfit p (findBestTrade p).1 (findBestTrade p).2 ∧
      0 ≤ pairProfit p (findBestTradeFast p).1 (findBestTradeFast p).2 := by
  constructor
  · by_cases h2 : p.length ≤ 1
    · rw [(short_both p h2).1]
      simp [pairProfit]
    · exact (outerLoop_inv p p.length 0 0 0 (-1) (findBestTrade p)
        (le_refl 0) (by omega) (by simp [pairProfit]) (outerLoop_run p)).2.2
  · rcases fast_opt p with ⟨h00, _⟩ | ⟨_, _, hpos, _⟩
    · rw [h00]
      simp [pairProfit]
    · exact le_of_lt hpos

/-- Claim C8: sequences of length 0 or 1 yield `(0, 0)` from both finders,
whatever the element value. -/
theorem claimC8_short (p : List Int) (h : p.length ≤ 1) :
    findBestTrade p = (0, 0) ∧ findBestTradeFast p = (0, 0) :=
  short_both p h

/-- Witness for C8 at the concrete input [5]. -/
theorem claimC8_short_witness :
    ([5] : List Int).length ≤ 1 ∧
      (findBestTrade [5] = (0, 0) ∧ findBestTradeFast [5] = (0, 0)) :=
  ⟨by decide, claimC8_short [5] (by decide)⟩

/-- Claim C9 (counterexample): hoisting the baseline computation to once per
outer iteration changes the observable result — on `[0, 3, 2]` the hoisted
variant returns `(0, 2)` (a stale baseline of 0 lets the weaker pair
`(0, 2)` overwrite `(0, 1)`), while `findBestTrade` returns `(0, 1)`. -/
theorem claimC9_hoisted_differs :
    findBestTradeHoisted [0, 3, 2] = (0, 2) ∧
      findBestTrade [0, 3, 2] = (0, 1) ∧
      findBestTradeHoisted [0, 3, 2] ≠ findBestTrade [0, 3, 2] := by
  decide

/-- Claim C9 (amended): the recomputation of `currentBestProfit` on every
inner iteration is equivalent to caching it in a variable refreshed exactly
when the best pair is updated; that cached variant returns the same pair as
`findBestTrade` on every input. -/
theorem claimC9_cached_eq (p : List Int) :
    findBestTradeCached p = findBestTrade p := by
  rw [findBestTradeCached, findBestTrade,
    outerLoopC_eq p p.length 0 0 0 0 (-1) (by simp [pairProfit])]

/-- Claim C10: the outer loop of `findBestTrade` terminates within
`p.length` executions of its body — running it with fuel `p.length` never
exhausts the fuel (the restart target is strictly beyond the current index,
see `innerScan_next`, so the outer index strictly increases every
iteration). -/
theorem claimC10_at_most_n_iterations (p : List Int) :
    outerLoop p p.length 0 0 0 (-1) = some (findBestTrade p) :=
  outerLoop_run p

end StockTrading
